import Mathlib

/-!
Verification of the eora-rag retrieval-and-context core.

The definitions below are a shallow embedding of `src/vectorstore.py` and
`src/rag_service.py`: Python strings become `List Char` (with helpers that
mirror Python's negative indexing, slice clamping and `str.strip`), Python
`int` becomes `Int`, `float` timestamps and distances become `ℚ`, the Python
`dict` session map becomes an association list, exceptions become
`Except`/`Option`, and the remote collaborators (Gemini embedding/generation,
the Chroma collection) are passed in as explicit outcomes, since the core
treats them as opaque services.
-/

/-- Python `str.strip` whitespace test: the characters for which CPython's
`str.isspace()` holds — ASCII whitespace (space, tab, LF, CR, VT, FF), the
information separators U+001C–U+001F, NEL U+0085, and the Unicode spaces
NBSP U+00A0, OGHAM U+1680, U+2000–U+200A, LINE/PARAGRAPH SEPARATOR
U+2028/U+2029, NARROW NBSP U+202F, MATHEMATICAL SPACE U+205F and
IDEOGRAPHIC SPACE U+3000. -/
def isPySpace (c : Char) : Bool :=
  c == ' ' || c == '\t' || c == '\n' || c == '\r' || c == '\x0b' || c == '\x0c'
    || c == '\x1c' || c == '\x1d' || c == '\x1e' || c == '\x1f'
    || c == '\x85' || c == '\xa0' || c == '\u1680'
    || c == '\u2000' || c == '\u2001' || c == '\u2002' || c == '\u2003'
    || c == '\u2004' || c == '\u2005' || c == '\u2006' || c == '\u2007'
    || c == '\u2008' || c == '\u2009' || c == '\u200a'
    || c == '\u2028' || c == '\u2029' || c == '\u202f' || c == '\u205f'
    || c == '\u3000'

/-- Python indexing `text[i]`: negative indices count from the end, an index
out of range raises `IndexError` (modelled as `none`). -/
def pyIndex (t : List Char) (i : Int) : Option Char :=
  if i < 0 then
    if i + t.length < 0 then none else t[(i + t.length).toNat]?
  else
    t[i.toNat]?

/-- Clamp one bound of a Python slice `text[a:b]` into `[0, len]`, resolving
negative bounds from the end of the list. -/
def pyClamp (n : Nat) (i : Int) : Nat :=
  (min (max (if i < 0 then i + n else i) 0) (n : Int)).toNat

/-- Python slice `text[a:b]`. -/
def pySlice (t : List Char) (a b : Int) : List Char :=
  let a' := pyClamp t.length a
  let b' := pyClamp t.length b
  (t.drop a').take (b' - a')

/-- Python `str.strip()`: drop whitespace from both ends. -/
def pyStrip (l : List Char) : List Char :=
  ((l.dropWhile isPySpace).reverse.dropWhile isPySpace).reverse

/-- `str.strip()` on a packed string. -/
def pyStripString (s : String) : String :=
  ⟨pyStrip s.data⟩

/-- The sentence-terminal characters searched for by `_chunk_text`
(`text[i] in '.!?'`). -/
def isTerm (c : Char) : Bool :=
  c == '.' || c == '!' || c == '?'

/-- The backward sentence search
`for i in range(end, max(start + chunk_size//2, end - 100), -1)` of
`_chunk_text`: probes `cnt` indices downward from `hi`; `some (some (i+1))`
when `text[i]` is a sentence terminator, `some none` when the range is
exhausted, `none` if an index access raises. -/
def sentenceSearch (t : List Char) : Nat → Int → Option (Option Int)
  | 0, _ => some none
  | c + 1, hi =>
    match pyIndex t hi with
    | none => none
    | some ch => if isTerm ch then some (some (hi + 1)) else sentenceSearch t c (hi - 1)

/-- Lines 81–89 of `vectorstore.py`: `end = start + chunk_size`, then, when
`end < len(text)`, the backward search for the nearest sentence end
(`chunk_size//2` is Python floor division, hence `Int.fdiv`). -/
def computeEnd (t : List Char) (cs s : Int) : Option Int :=
  if s + cs < (t.length : Int) then
    match sentenceSearch t
        ((s + cs) - max (s + Int.fdiv cs 2) ((s + cs) - 100)).toNat (s + cs) with
    | none => none
    | some none => some (s + cs)
    | some (some e) => some e
  else some (s + cs)

/-- The `while start < len(text)` loop of `_chunk_text`, one constructor of
`fuel` per iteration (`none` means the fuel ran out, i.e. the loop is still
running after `fuel` iterations).  Each iteration computes `end`, appends
`text[start:end].strip()` when nonempty, and continues from `end - overlap`;
the loop exits when the new start reaches `len(text)`. -/
def chunkLoop (t : List Char) (cs ov : Int) (fuel : Nat) (s : Int)
    (acc : List (List Char)) : Option (List (List Char)) :=
  if (t.length : Int) ≤ s then some acc
  else
    match fuel with
    | 0 => none
    | f + 1 =>
      match computeEnd t cs s with
      | none => none
      | some e =>
        chunkLoop t cs ov f (e - ov)
          (if (pyStrip (pySlice t s e)).isEmpty then acc
           else acc ++ [pyStrip (pySlice t s e)])

/-- `EoraVectorStore._chunk_text(text, chunk_size, overlap)`: texts of length
`≤ chunk_size` are returned whole; otherwise the sliding-window loop runs
(with explicit fuel standing for the number of loop iterations). -/
def chunk_text (t : List Char) (cs ov : Int) (fuel : Nat) : Option (List (List Char)) :=
  if (t.length : Int) ≤ cs then some [t]
  else chunkLoop t cs ov fuel 0 []

/-- Interpretation of "concatenation of the chunks with the deliberate
overlap regions removed": keep the first chunk whole and drop the leading
`ov` (overlap) characters of every later chunk. -/
def reconstruct (ov : Nat) : List (List Char) → List Char
  | [] => []
  | c :: rest => c ++ (rest.map (List.drop ov)).flatten

/-!
## Embedding client (`EoraVectorStore._get_embedding`)

IEEE floats are embedded as `NF`: exact rationals for finite values plus the
non-finite values that numpy's silent `x / 0.0` can produce.  The backend
call is passed in as its outcome (`Except.error` = a raised exception, caught
by the `except` branch which returns `None`).  `np.linalg.norm` is
`sqrt (sum of squares)`; the square root is an abstract parameter since only
`sqrt 0 = 0` matters for the claims.
-/

/-- A float value: finite (exact rational), NaN, or a signed infinity. -/
inductive NF where
  | fin (q : ℚ)
  | nan
  | inf
  | ninf
deriving DecidableEq

/-- IEEE division as performed elementwise by numpy's `array / scalar`
(which warns but does not raise): `0.0 / 0.0 = NaN`, `±x / 0.0 = ±inf`.
Non-finite operands never arise on the modelled path. -/
def nfDiv : NF → NF → NF
  | NF.fin a, NF.fin b =>
    if b = 0 then (if a = 0 then NF.nan else if 0 < a then NF.inf else NF.ninf)
    else NF.fin (a / b)
  | _, _ => NF.nan

/-- Sum of squares of the raw backend vector (the radicand inside
`np.linalg.norm`). -/
def sum_sq (v : List ℚ) : ℚ :=
  (v.map (fun x => x * x)).sum

/-- `EoraVectorStore._get_embedding`: on a raised backend exception the
`except` branch returns `None`; otherwise every component is divided by the
L2 norm and the resulting (possibly non-finite) vector is returned. -/
def get_embedding (sqrtm : ℚ → ℚ) (backend : Except String (List ℚ)) :
    Option (List NF) :=
  match backend with
  | Except.error _ => none
  | Except.ok emb =>
    let norm := sqrtm (sum_sq emb)
    some (emb.map (fun x => nfDiv (NF.fin x) (NF.fin norm)))

/-!
## Retriever (`EoraVectorStore.search`)
-/

/-- The metadata dict stored per chunk (`add_cases`) and returned by the
collection. -/
structure Meta where
  url : String
  title : String
  description : String
  chunk_index : Nat
  total_chunks : Nat
deriving DecidableEq

/-- One formatted search result (`{'content', 'metadata', 'similarity'}`). -/
structure SearchResult where
  content : String
  metadata : Meta
  similarity : ℚ
deriving DecidableEq

/-- One extracted source citation (`{'title', 'url', 'description'}`). -/
structure Source where
  title : String
  url : String
  description : String
deriving DecidableEq

/-- What `self.collection.query(...)` hands back: the first (and only) row of
`documents`, `metadatas` and `distances`, in the index's native ranking
order.  The collection is an opaque external collaborator. -/
structure QueryReply where
  documents : List String
  metadatas : List Meta
  distances : List ℚ
deriving DecidableEq

/-- One step of the result-formatting loop: `documents[0][i]`,
`metadatas[0][i]`, `distances[0][i]` and `similarity = 1 - distance`;
`none` models an `IndexError` on a ragged reply. -/
def result_at (reply : QueryReply) (i : Nat) : Option SearchResult :=
  match reply.documents[i]?, reply.metadatas[i]?, reply.distances[i]? with
  | some d, some m, some dist => some ⟨d, m, 1 - dist⟩
  | _, _, _ => none

/-- The `for i in range(len(results['documents'][0]))` accumulation loop of
`search`, evaluated up to index `n`. -/
def format_results (reply : QueryReply) : Nat → Option (List SearchResult)
  | 0 => some []
  | n + 1 =>
    match format_results reply n, result_at reply n with
    | some acc, some r => some (acc ++ [r])
    | _, _ => none

/-- `EoraVectorStore.search`: if `_get_embedding` returned `None` the search
returns `[]` immediately; otherwise the collection reply is formatted in
native order. -/
def search (query_embedding : Option (List NF)) (reply : QueryReply) :
    Option (List SearchResult) :=
  match query_embedding with
  | none => some []
  | some _ => format_results reply reply.documents.length

/-- Spec-side description of the formatted results: pair each document with
its metadata and distance positionally and score it `1 - distance`. -/
def spec_results (reply : QueryReply) : List SearchResult :=
  (reply.documents.zip (reply.metadatas.zip reply.distances)).map
    (fun p => ⟨p.1, p.2.1, 1 - p.2.2⟩)

/-!
## RAG service (`EoraRAGService`)
-/

/-- One recorded question/answer turn
(`{'question', 'answer', 'timestamp'}`); the `time.time()` float is an exact
rational. -/
structure Turn where
  question : String
  answer : String
  timestamp : ℚ
deriving DecidableEq

/-- The `self.sessions` dict: an association list from session id to its
turn list. -/
abbrev Sessions := List (String × List Turn)

/-- Dict lookup `self.sessions[session_id]` (with membership test). -/
def lookupSession : Sessions → String → Option (List Turn)
  | [], _ => none
  | (k, v) :: rest, sid => if k = sid then some v else lookupSession rest sid

/-- Dict store `self.sessions[session_id] = v`. -/
def setSession : Sessions → String → List Turn → Sessions
  | [], sid, v => [(sid, v)]
  | (k, w) :: rest, sid, v =>
    if k = sid then (k, v) :: rest else (k, w) :: setSession rest sid v

/-- The turn list of a session, `[]` when the session does not exist yet. -/
def getTurns (ss : Sessions) (sid : String) : List Turn :=
  (lookupSession ss sid).getD []

/-- `EoraRAGService._save_to_session`: lazily create the entry, append the
new turn, then keep only the last 10 turns (`[-10:]`) when the cap is
exceeded. -/
def save_to_session (ss : Sessions) (sid q a : String) (now : ℚ) : Sessions :=
  let appended := getTurns ss sid ++ [⟨q, a, now⟩]
  let capped :=
    if appended.length > 10 then appended.drop (appended.length - 10) else appended
  setSession ss sid capped

/-- The two history lines rendered per turn (the answer is previewed to its
first 200 characters). -/
def history_lines (msgs : List Turn) : List String :=
  (msgs.map (fun m =>
    ["Клиент: " ++ m.question, "Ассистент: " ++ (m.answer.take 200) ++ "..."])).flatten

/-- `EoraRAGService._get_session_history`: `""` for an unknown session,
otherwise the last `maxMessages` turns (`[-max_messages:]`) rendered as
lines joined by newlines. -/
def get_session_history (ss : Sessions) (sid : String) (maxMessages : Nat) : String :=
  match lookupSession ss sid with
  | none => ""
  | some msgs =>
    String.intercalate ("\n") (history_lines (msgs.drop (msgs.length - maxMessages)))

/-- The first-turn test of `get_answer` step 3:
`session_id not in self.sessions or len(self.sessions[session_id]) == 0`. -/
def is_first_message (ss : Sessions) (sid : String) : Bool :=
  match lookupSession ss sid with
  | none => true
  | some msgs => msgs.length == 0

/-- The source record built from one search result. -/
def mkSource (r : SearchResult) : Source :=
  ⟨r.metadata.title, r.metadata.url, r.metadata.description⟩

/-- The `for result in search_results` loop of
`EoraRAGService._extract_sources`, with its `seen_urls` set and `sources`
accumulator. -/
def extract_sources_aux (seen : List String) (sources : List Source) :
    List SearchResult → List Source
  | [] => sources
  | r :: rest =>
    if r.metadata.url ∈ seen then extract_sources_aux seen sources rest
    else extract_sources_aux (r.metadata.url :: seen) (sources ++ [mkSource r]) rest

/-- `EoraRAGService._extract_sources`. -/
def extract_sources (rs : List SearchResult) : List Source :=
  extract_sources_aux [] [] rs

/-- Spec-side first-occurrence deduplication by url: keep each result whose
url has not occurred earlier, carrying the first occurrence's fields, in
first-occurrence order. -/
def spec_dedup : List SearchResult → List SearchResult
  | [] => []
  | r :: rest =>
    r :: (spec_dedup rest).filter (fun x => x.metadata.url != r.metadata.url)

/-- One numbered context block of `EoraRAGService._build_context`. -/
def context_part (i : Nat) (r : SearchResult) : String :=
  "\nИсточник " ++ toString i ++ ":\nНазвание: " ++ r.metadata.title ++
    "\nURL: " ++ r.metadata.url ++ "\nОписание: " ++ r.metadata.description ++
    "\nКонтент: " ++ r.content ++ "\n"

/-- `EoraRAGService._build_context`: numbered blocks (1-based, in retriever
order) joined by newlines. -/
def build_context (results : List SearchResult) : String :=
  String.intercalate ("\n") (results.enum.map (fun p => context_part (p.1 + 1) p.2))

/-- The greeting directive selected by the first-turn flag in
`EoraRAGService._build_prompt`. -/
def greeting_instruction (firstMsg : Bool) : String :=
  if firstMsg then ("Поприветствуй клиента в первом сообщении")
  else ("Не здоровайся повторно")

/-- `EoraRAGService._build_prompt`: the fixed instruction template around the
context, optional history section, question and greeting directive. -/
def build_prompt (question context : String) (firstMsg : Bool)
    (chatHistory : String) : String :=
  let historyContext :=
    if chatHistory ≠ "" then ("\nИСТОРИЯ РАЗГОВОРА:\n" ++ chatHistory ++ "\n") else ("")
  "Ты - ассистент компании EORA, которая занимается разработкой решений на основе искусственного интеллекта.\n\nКОНТЕКСТ (информация о проектах EORA):\n"
    ++ context ++ historyContext
    ++ "\n\nТЕКУЩИЙ ВОПРОС КЛИЕНТА: " ++ question
    ++ "\n\nИНСТРУКЦИИ:\n1. " ++ greeting_instruction firstMsg
    ++ "\n2. Будь краток и конкретен - 2-3 абзаца максимум\n3. Используй информацию из контекста и учитывай историю разговора\n4. Приводи конкретные примеры проектов\n5. Если нет релевантной информации, честно скажи об этом\n6. Отвечай естественно и дружелюбно\n7. Отвечай на русском языке\n\nОТВЕТ:"

/-- The fixed no-retrieval answer of `get_answer` step 1. -/
def no_info_answer : String :=
  "Извините, я не нашел релевантной информации для ответа на ваш вопрос."

/-- The degraded answer produced by the `except` branch of `get_answer`. -/
def error_answer (e : String) : String :=
  "Произошла ошибка при обработке вашего запроса: " ++ e

/-- `EoraRAGService.get_answer(question, session_id)`.  The two blocking
collaborator calls are passed in as outcomes: `searchRes` is what
`self.vectorstore.search` produced (`Except.error` = an exception raised
during retrieval, caught by the `except` branch) and `gen` maps the
assembled prompt to the generation outcome (`Except.error` = a raised
backend exception, likewise caught).  Returns the `(answer, sources)` pair
together with the updated session store. -/
def get_answer (ss : Sessions) (question sid : String) (now : ℚ)
    (searchRes : Except String (List SearchResult))
    (gen : String → Except String String) :
    (String × List Source) × Sessions :=
  match searchRes with
  | Except.error e =>
    let ans := error_answer e
    ((ans, []), save_to_session ss sid question ans now)
  | Except.ok results =>
    if results.isEmpty then
      ((no_info_answer, []), save_to_session ss sid question no_info_answer now)
    else
      let ctx := build_context results
      let firstMsg := is_first_message ss sid
      let chatHistory := get_session_history ss sid 4
      let prompt := build_prompt question ctx firstMsg chatHistory
      match gen prompt with
      | Except.error e =>
        let ans := error_answer e
        ((ans, []), save_to_session ss sid question ans now)
      | Except.ok txt =>
        let ans := pyStripString txt
        ((ans, extract_sources results), save_to_session ss sid question ans now)

/-- One inbound request with the outcomes of its collaborator calls. -/
structure Call where
  question : String
  sid : String
  now : ℚ
  searchRes : Except String (List SearchResult)
  gen : String → Except String String

/-- Process one request against the session store. -/
def apply_call (ss : Sessions) (c : Call) : Sessions :=
  (get_answer ss c.question c.sid c.now c.searchRes c.gen).2

/-- One `(id, embedding, document, metadata)` record of the vector index. -/
structure IndexedEntry where
  eid : String
  vec : List ℚ
  doc : String
  meta : Meta
deriving DecidableEq

/-- The whole mutable state reachable from `EoraRAGService`: the session
dict plus the vector collection's contents.  `get_answer` only ever reads
the collection (`collection.query`); its sole write target is
`self.sessions`. -/
structure RAGState where
  sessions : Sessions
  index_entries : List IndexedEntry

/-- `get_answer` viewed as a transformer of the whole service state. -/
def get_answer_service (st : RAGState) (question sid : String) (now : ℚ)
    (searchRes : Except String (List SearchResult))
    (gen : String → Except String String) :
    (String × List Source) × RAGState :=
  let out := get_answer st.sessions question sid now searchRes gen
  (out.1, { sessions := out.2, index_entries := st.index_entries })

/-- Keep the last `n` elements (`xs[-n:]` for nonempty `xs` and `n ≥ 1`). -/
def lastN (n : Nat) (l : List α) : List α :=
  l.drop (l.length - n)

-- Concrete fixtures used by witnesses and counterexamples.
def c1text : List Char := "aaaaaa.aaaa".toList
def m0 : Meta := ⟨"u", "t", "d", 0, 1⟩
def r0 : SearchResult := ⟨"c", m0, 1⟩
def reply0 : QueryReply := ⟨["doc"], [m0], [1/2]⟩
def rs0 : List SearchResult :=
  [⟨"c1", ⟨"u1", "t1", "d1", 0, 2⟩, 1⟩,
   ⟨"c2", ⟨"u1", "t9", "d9", 1, 2⟩, 1⟩,
   ⟨"c3", ⟨"u2", "t2", "d2", 0, 1⟩, 1⟩]
def c9cex : List Char := List.replicate 2400 'a' ++ List.replicate 100 ' '

-- Sanity examples: concrete executions of the embedded code.
set_option maxHeartbeats 1000000 in
example : chunk_text ("a b".toList) 2 0 4 = some [['a'], ['b']] := by decide
set_option maxHeartbeats 1000000 in
example : chunk_text ("aaa".toList) 2 1 4 =
    some [['a', 'a'], ['a', 'a'], ['a']] := by decide

/-!
## Session store lemmas
-/

theorem lookup_set_same (ss : Sessions) (sid : String) (v : List Turn) :
    lookupSession (setSession ss sid v) sid = some v := by
  induction ss with
  | nil => simp [setSession, lookupSession]
  | cons kv rest ih =>
    obtain ⟨k, w⟩ := kv
    by_cases h : k = sid
    · simp [setSession, lookupSession, h]
    · simp [setSession, lookupSession, h, ih]

theorem lookup_set_other (ss : Sessions) (sid sid' : String) (v : List Turn)
    (h : sid' ≠ sid) :
    lookupSession (setSession ss sid v) sid' = lookupSession ss sid' := by
  have hne : ¬ sid = sid' := fun hh => h hh.symm
  induction ss with
  | nil => simp [setSession, lookupSession, hne]
  | cons kv rest ih =>
    obtain ⟨k, w⟩ := kv
    by_cases hk : k = sid
    · subst hk
      simp [setSession, lookupSession, hne]
    · simp [setSession, lookupSession, hk, ih]

theorem lastN_length_le (n : Nat) (l : List α) : (lastN n l).length ≤ n := by
  simp [lastN, List.length_drop]
  omega

theorem lastN_of_length_le {n : Nat} {l : List α} (h : l.length ≤ n) :
    lastN n l = l := by
  simp [lastN]
  have : l.length - n = 0 := by omega
  rw [this, List.drop_zero]

theorem drop_append_ge (x y : List α) (m : Nat) (h : x.length ≤ m) :
    (x ++ y).drop m = y.drop (m - x.length) := by
  obtain ⟨k, rfl⟩ : ∃ k, m = x.length + k := ⟨m - x.length, by omega⟩
  rw [List.drop_append]
  congr 1
  omega

theorem lastN_append_absorb (n : Nat) (a b : List α) :
    lastN n (lastN n a ++ b) = lastN n (a ++ b) := by
  by_cases ha : a.length ≤ n
  · rw [lastN_of_length_le ha]
  · by_cases hb : n ≤ b.length
    · unfold lastN
      rw [drop_append_ge _ _ _
          (by simp only [List.length_append, List.length_drop]; omega),
        drop_append_ge _ _ _
          (by simp only [List.length_append]; omega)]
      congr 1
      simp only [List.length_append, List.length_drop]
      omega
    · unfold lastN
      rw [List.drop_append_of_le_length
          (by simp only [List.length_append, List.length_drop]; omega),
        List.drop_append_of_le_length
          (by simp only [List.length_append]; omega),
        List.drop_drop]
      congr 2
      simp only [List.length_append, List.length_drop]
      omega

theorem getTurns_save (ss : Sessions) (sid q a : String) (now : ℚ) :
    getTurns (save_to_session ss sid q a now) sid
      = lastN 10 (getTurns ss sid ++ [⟨q, a, now⟩]) := by
  unfold save_to_session
  simp only [getTurns, lookup_set_same, Option.getD_some]
  split
  · rfl
  · next h =>
    exact (lastN_of_length_le (by omega)).symm

theorem getTurns_save_other (ss : Sessions) (sid sid' q a : String) (now : ℚ)
    (h : sid' ≠ sid) :
    getTurns (save_to_session ss sid q a now) sid' = getTurns ss sid' := by
  unfold save_to_session getTurns
  rw [lookup_set_other _ _ _ _ h]

/-- C5: starting from the empty store, after any sequence of appends to a
session the stored turn list is exactly the last 10 appended turns in
insertion order (bounded FIFO, oldest evicted first), hence never longer
than the cap of 10. -/
theorem save_to_session_bounded_fifo (items : List (String × String × ℚ))
    (sid : String) :
    getTurns
        (items.foldl (fun ss it => save_to_session ss sid it.1 it.2.1 it.2.2) [])
        sid
      = lastN 10 (items.map (fun it => Turn.mk it.1 it.2.1 it.2.2))
    ∧ (getTurns
        (items.foldl (fun ss it => save_to_session ss sid it.1 it.2.1 it.2.2) [])
        sid).length ≤ 10 := by
  have main : ∀ (items : List (String × String × ℚ)) (ss : Sessions),
      (getTurns ss sid).length ≤ 10 →
      getTurns
          (items.foldl (fun ss it => save_to_session ss sid it.1 it.2.1 it.2.2) ss)
          sid
        = lastN 10 (getTurns ss sid
            ++ items.map (fun it => Turn.mk it.1 it.2.1 it.2.2)) := by
    intro items
    induction items with
    | nil =>
      intro ss h
      simp [lastN_of_length_le h]
    | cons it its ih =>
      intro ss h
      have hsave := getTurns_save ss sid it.1 it.2.1 it.2.2
      simp only [List.foldl_cons]
      rw [ih _ (by rw [hsave]; exact lastN_length_le _ _)]
      rw [hsave, lastN_append_absorb, List.map_cons, List.append_assoc,
        List.singleton_append]
  constructor
  · have := main items [] (by simp [getTurns, lookupSession])
    simpa [getTurns, lookupSession] using this
  · have := main items [] (by simp [getTurns, lookupSession])
    rw [show getTurns [] sid = [] by simp [getTurns, lookupSession]] at this
    simp only [List.nil_append] at this
    rw [this]
    exact lastN_length_le _ _

/-!
## Source extraction lemmas
-/

theorem spec_dedup_filter (u : String) (l : List SearchResult) :
    spec_dedup (l.filter (fun x => x.metadata.url != u))
      = (spec_dedup l).filter (fun x => x.metadata.url != u) := by
  induction l with
  | nil => simp [spec_dedup]
  | cons r rest ih =>
    by_cases hr : r.metadata.url = u
    · rw [List.filter_cons_of_neg (by simp [hr])]
      rw [ih]
      rw [show spec_dedup (r :: rest)
          = r :: (spec_dedup rest).filter (fun x => x.metadata.url != r.metadata.url)
          from rfl]
      rw [List.filter_cons_of_neg (by simp [hr])]
      rw [List.filter_filter]
      refine (List.filter_congr ?_).symm
      intro x _
      simp [hr, Bool.and_self]
    · rw [List.filter_cons_of_pos (by simp [hr])]
      rw [show spec_dedup (r :: rest.filter (fun x => x.metadata.url != u))
          = r :: (spec_dedup (rest.filter (fun x => x.metadata.url != u))).filter
              (fun x => x.metadata.url != r.metadata.url) from rfl]
      rw [show spec_dedup (r :: rest)
          = r :: (spec_dedup rest).filter (fun x => x.metadata.url != r.metadata.url)
          from rfl]
      rw [List.filter_cons_of_pos (by simp [hr])]
      rw [ih, List.filter_filter, List.filter_filter]
      refine congrArg (r :: ·) (List.filter_congr ?_)
      intro x _
      simp [Bool.and_comm]

theorem extract_sources_aux_spec (rs : List SearchResult) :
    ∀ (seen : List String) (sources : List Source),
    extract_sources_aux seen sources rs
      = sources
        ++ (spec_dedup (rs.filter (fun r => decide (r.metadata.url ∉ seen)))).map
            mkSource := by
  induction rs with
  | nil => intro seen sources; simp [extract_sources_aux, spec_dedup]
  | cons r rest ih =>
    intro seen sources
    by_cases hs : r.metadata.url ∈ seen
    · rw [show extract_sources_aux seen sources (r :: rest)
          = extract_sources_aux seen sources rest by
        simp [extract_sources_aux, hs]]
      rw [List.filter_cons_of_neg (by simp [hs])]
      exact ih seen sources
    · rw [show extract_sources_aux seen sources (r :: rest)
          = extract_sources_aux (r.metadata.url :: seen)
              (sources ++ [mkSource r]) rest by
        simp [extract_sources_aux, hs]]
      rw [ih]
      rw [List.filter_cons_of_pos (by simp [hs])]
      rw [show spec_dedup
            (r :: rest.filter (fun x => decide (x.metadata.url ∉ seen)))
          = r :: (spec_dedup (rest.filter (fun x => decide (x.metadata.url ∉ seen)))).filter
              (fun x => x.metadata.url != r.metadata.url) from rfl]
      rw [← spec_dedup_filter, List.filter_filter]
      rw [show rest.filter (fun x => decide (x.metadata.url ∉ r.metadata.url :: seen))
          = rest.filter
              (fun x => (x.metadata.url != r.metadata.url)
                && decide (x.metadata.url ∉ seen)) from
        List.filter_congr (by intro x _; simp [not_or]; tauto)]
      simp [List.append_assoc]

theorem spec_dedup_urls_nodup (l : List SearchResult) :
    ((spec_dedup l).map (fun r => r.metadata.url)).Nodup := by
  induction l with
  | nil => simp [spec_dedup]
  | cons r rest ih =>
    rw [show spec_dedup (r :: rest)
        = r :: (spec_dedup rest).filter (fun x => x.metadata.url != r.metadata.url)
        from rfl]
    rw [List.map_cons]
    refine List.Nodup.cons ?_ ?_
    · intro hmem
      obtain ⟨x, hx, hxu⟩ := List.mem_map.mp hmem
      have := List.of_mem_filter hx
      simp at this
      exact this hxu
    · exact List.Nodup.sublist
        (List.Sublist.map _ (List.filter_sublist _)) ih

theorem spec_dedup_urls_complete (l : List SearchResult) :
    ∀ x ∈ l, x.metadata.url ∈ (spec_dedup l).map (fun r => r.metadata.url) := by
  induction l with
  | nil => simp
  | cons r rest ih =>
    intro x hx
    rw [show spec_dedup (r :: rest)
        = r :: (spec_dedup rest).filter (fun x => x.metadata.url != r.metadata.url)
        from rfl]
    rcases List.mem_cons.mp hx with h | h
    · subst h; simp
    · by_cases hu : x.metadata.url = r.metadata.url
      · simp [hu]
      · obtain ⟨y, hy, hyu⟩ := List.mem_map.mp (ih x h)
        have hyf : y ∈ (spec_dedup rest).filter
            (fun z => z.metadata.url != r.metadata.url) := by
          refine List.mem_filter.mpr ⟨hy, ?_⟩
          simp [hyu, hu]
        rw [List.map_cons]
        exact List.mem_cons_of_mem _ (List.mem_map.mpr ⟨y, hyf, hyu⟩)

/-- C6: `_extract_sources` returns exactly the first-occurrence-ordered,
url-deduplicated citations: it equals the spec-side dedup (which keeps each
url's first occurrence with that occurrence's title/url/description, in
first-occurrence order), its url list has no duplicates, and every input url
occurs in it. -/
theorem extract_sources_dedup_first_occurrence (rs : List SearchResult) :
    extract_sources rs = (spec_dedup rs).map mkSource
    ∧ ((extract_sources rs).map Source.url).Nodup
    ∧ ∀ r ∈ rs, r.metadata.url ∈ (extract_sources rs).map Source.url := by
  have hmain : extract_sources rs = (spec_dedup rs).map mkSource := by
    rw [show extract_sources rs = extract_sources_aux [] [] rs from rfl,
      extract_sources_aux_spec]
    simp
  have hurls : (extract_sources rs).map Source.url
      = (spec_dedup rs).map (fun r => r.metadata.url) := by
    rw [hmain, List.map_map]
    rfl
  refine ⟨hmain, ?_, ?_⟩
  · rw [hurls]; exact spec_dedup_urls_nodup rs
  · intro r hr
    rw [hurls]
    exact spec_dedup_urls_complete rs r hr

/-- C6 witness: a concrete run with a repeated url keeps only the first
occurrence's record, in first-occurrence order. -/
theorem extract_sources_dedup_first_occurrence_witness :
    extract_sources rs0 = [⟨"t1", "u1", "d1"⟩, ⟨"t2", "u2", "d2"⟩]
    ∧ "u1" ∈ (extract_sources rs0).map Source.url := by
  have h := extract_sources_dedup_first_occurrence rs0
  refine ⟨?_, h.2.2 ⟨"c1", ⟨"u1", "t1", "d1", 0, 2⟩, 1⟩ (by simp [rs0])⟩
  rw [h.1]
  decide

/-!
## Orchestrator lemmas
-/

theorem get_answer_sessions_eq (ss : Sessions) (q sid : String) (now : ℚ)
    (sr : Except String (List SearchResult))
    (gen : String → Except String String) :
    (get_answer ss q sid now sr gen).2
      = save_to_session ss sid q (get_answer ss q sid now sr gen).1.1 now := by
  unfold get_answer
  rcases sr with e | results
  · rfl
  · dsimp only
    split
    · rfl
    · split <;> rfl

/-- C2: every `get_answer` call — retrieval results, empty retrieval, a
retrieval exception, or a raised generation backend — returns a well-formed
`(answer, sources)` pair and records exactly one turn `(question, returned
answer, timestamp)` in that session (subject to the 10-turn cap); on the
empty-retrieval path the fixed no-information answer with no sources is
returned, and on a raised generation or retrieval backend the degraded
answer carrying the failure description with no sources is both returned
and recorded. -/
theorem get_answer_total_one_turn (ss : Sessions) (q sid : String) (now : ℚ)
    (sr : Except String (List SearchResult))
    (gen : String → Except String String) :
    getTurns (get_answer ss q sid now sr gen).2 sid
      = lastN 10 (getTurns ss sid
          ++ [⟨q, (get_answer ss q sid now sr gen).1.1, now⟩])
    ∧ (get_answer ss q sid now (Except.ok []) gen).1 = (no_info_answer, [])
    ∧ (∀ rs e, rs ≠ [] →
        (get_answer ss q sid now (Except.ok rs) (fun _ => Except.error e)).1
          = (error_answer e, []))
    ∧ (∀ e, (get_answer ss q sid now (Except.error e) gen).1
          = (error_answer e, [])) := by
  refine ⟨?_, rfl, ?_, fun e => rfl⟩
  · rw [get_answer_sessions_eq, getTurns_save]
  · intro rs e hrs
    rcases rs with _ | ⟨r, rest⟩
    · exact absurd rfl hrs
    · rfl

def st0 : RAGState :=
  ⟨[("other", [⟨"x", "y", 0⟩])], [⟨"id1", [1], "doc", m0⟩]⟩

/-- C2 witness: on a concrete call whose generation backend raises, the
returned answer is the degraded error answer with no sources, and exactly
that turn is recorded. -/
theorem get_answer_total_one_turn_witness :
    getTurns (get_answer [] ("q") ("s") 0 (Except.ok [r0])
        (fun _ => Except.error ("boom"))).2 ("s")
      = [⟨"q", error_answer ("boom"), 0⟩]
    ∧ (get_answer [] ("q") ("s") 0 (Except.ok [r0])
        (fun _ => Except.error ("boom"))).1 = (error_answer ("boom"), []) := by
  have h := get_answer_total_one_turn [] "q" "s" 0 (Except.ok [r0])
    (fun _ => Except.error ("boom"))
  have h3 := h.2.2.1 [r0] "boom" (by simp)
  refine ⟨?_, h3⟩
  rw [h.1, h3]
  simp [getTurns, lookupSession, lastN]

theorem is_first_message_eq (ss : Sessions) (sid : String) :
    is_first_message ss sid = ((getTurns ss sid).length == 0) := by
  unfold is_first_message getTurns
  cases lookupSession ss sid <;> simp

theorem is_first_message_save (ss : Sessions) (sid q a : String) (now : ℚ) :
    is_first_message (save_to_session ss sid q a now) sid = false := by
  rw [is_first_message_eq, getTurns_save]
  have h1 : (getTurns ss sid ++ [(⟨q, a, now⟩ : Turn)]).length
      = (getTurns ss sid).length + 1 := by simp
  simp only [lastN, List.length_drop, h1]
  simp only [beq_eq_false_iff_ne, ne_eq]
  omega

theorem is_first_message_save_other (ss : Sessions) (sid sid' q a : String)
    (now : ℚ) (h : sid' ≠ sid) :
    is_first_message (save_to_session ss sid q a now) sid'
      = is_first_message ss sid' := by
  rw [is_first_message_eq, is_first_message_eq,
    getTurns_save_other _ _ _ _ _ _ h]

theorem apply_call_self (ss : Sessions) (c : Call) :
    is_first_message (apply_call ss c) c.sid = false := by
  unfold apply_call
  rw [get_answer_sessions_eq]
  exact is_first_message_save _ _ _ _ _

theorem apply_call_other (ss : Sessions) (c : Call) (sid' : String)
    (h : sid' ≠ c.sid) :
    is_first_message (apply_call ss c) sid' = is_first_message ss sid' := by
  unfold apply_call
  rw [get_answer_sessions_eq]
  exact is_first_message_save_other _ _ _ _ _ _ h

theorem foldl_calls_first (cs : List Call) :
    ∀ (ss : Sessions) (sid : String),
    is_first_message (cs.foldl apply_call ss) sid
      = (cs.all (fun c => c.sid != sid) && is_first_message ss sid) := by
  induction cs with
  | nil => intro ss sid; simp
  | cons c cs ih =>
    intro ss sid
    simp only [List.foldl_cons, List.all_cons]
    rw [ih]
    by_cases h : c.sid = sid
    · subst h
      rw [apply_call_self]
      simp
    · rw [apply_call_other _ _ _ (fun hh => h hh.symm)]
      have : (c.sid != sid) = true := by simp [h]
      rw [this]
      simp [Bool.and_assoc]

/-- C7: starting from the service's empty session store, the first-turn flag
computed by `get_answer` step 3 (`session_id not in sessions or the session
is empty`) is true at a given point of a call sequence exactly when no
earlier call targeted that session — since every call records a turn
(claim C2), the flag is therefore true exactly once per session id, on the
call immediately preceding that session's first recorded turn, and never on
any later call, regardless of which retrieval/generation outcomes the calls
had. -/
theorem is_first_message_true_exactly_once (cs : List Call) (sid : String) :
    is_first_message (cs.foldl apply_call []) sid
      = cs.all (fun c => c.sid != sid) := by
  rw [foldl_calls_first]
  simp [is_first_message, lookupSession]

/-- C10: a `get_answer` call leaves the vector index contents untouched
(its only collection operation is the read `collection.query`, inside
`vectorstore.search`) and mutates no session other than its own: every
other session id keeps exactly its previous turn list, on success and
failure paths alike. -/
theorem get_answer_frame (st : RAGState) (q sid : String) (now : ℚ)
    (sr : Except String (List SearchResult))
    (gen : String → Except String String) :
    (get_answer_service st q sid now sr gen).2.index_entries = st.index_entries
    ∧ ∀ sid', sid' ≠ sid →
        getTurns (get_answer_service st q sid now sr gen).2.sessions sid'
          = getTurns st.sessions sid' := by
  refine ⟨rfl, ?_⟩
  intro sid' h
  show getTurns (get_answer st.sessions q sid now sr gen).2 sid'
      = getTurns st.sessions sid'
  rw [get_answer_sessions_eq]
  exact getTurns_save_other _ _ _ _ _ _ h

/-- C10 witness: a concrete call on session `"s"` leaves session `"other"`
and the index entries exactly as they were. -/
theorem get_answer_frame_witness :
    (get_answer_service st0 ("q") ("s") 0 (Except.ok [])
        (fun _ => Except.error ("x"))).2.index_entries = st0.index_entries
    ∧ getTurns (get_answer_service st0 ("q") ("s") 0 (Except.ok [])
        (fun _ => Except.error ("x"))).2.sessions ("other")
      = [⟨"x", "y", 0⟩] := by
  have h := get_answer_frame st0 ("q") ("s") 0 (Except.ok [])
    (fun _ => Except.error ("x"))
  refine ⟨h.1, ?_⟩
  rw [h.2 ("other") (by decide)]
  decide

/-!
## Retriever lemmas
-/

theorem format_results_spec (ds : List String) (ms : List Meta) (qs : List ℚ)
    (hm : ms.length = ds.length) (hq : qs.length = ds.length) :
    ∀ n, n ≤ ds.length →
    format_results ⟨ds, ms, qs⟩ n = some ((spec_results ⟨ds, ms, qs⟩).take n) := by
  have hlen : (spec_results ⟨ds, ms, qs⟩).length = ds.length := by
    simp [spec_results, List.length_zip, hm, hq]
  have key : ∀ n (h : n < ds.length),
      result_at ⟨ds, ms, qs⟩ n
        = some ⟨ds.get ⟨n, h⟩, ms.get ⟨n, by omega⟩, 1 - qs.get ⟨n, by omega⟩⟩ := by
    intro n h
    unfold result_at
    dsimp only
    rw [List.getElem?_eq_getElem h,
      List.getElem?_eq_getElem (show n < ms.length by omega),
      List.getElem?_eq_getElem (show n < qs.length by omega)]
    simp [List.get_eq_getElem]
  have key2 : ∀ n (h : n < ds.length) (hs : n < (spec_results ⟨ds, ms, qs⟩).length),
      (spec_results ⟨ds, ms, qs⟩).get ⟨n, hs⟩
        = ⟨ds.get ⟨n, h⟩, ms.get ⟨n, by omega⟩, 1 - qs.get ⟨n, by omega⟩⟩ := by
    intro n h hs
    simp [spec_results, List.get_eq_getElem, List.getElem_map, List.getElem_zip]
  intro n
  induction n with
  | zero => intro _; simp [format_results]
  | succ n ih =>
    intro hn
    have hn' : n < ds.length := by omega
    have hsn : n < (spec_results ⟨ds, ms, qs⟩).length := by omega
    rw [show format_results ⟨ds, ms, qs⟩ (n + 1)
        = (match format_results ⟨ds, ms, qs⟩ n, result_at ⟨ds, ms, qs⟩ n with
            | some acc, some r => some (acc ++ [r])
            | _, _ => none) from rfl]
    rw [ih (by omega), key n hn', List.take_succ,
      List.getElem?_eq_getElem hsn]
    have hx := key2 n hn' hsn
    simp only [List.get_eq_getElem] at hx
    simp [hx]

/-- C8: if the query embedding failed (`None`), `search` returns the empty
result list rather than raising; when the embedding succeeded, the results
are exactly the collection's reply in its native ranking order, each scored
`similarity = 1 - distance` (stated for well-formed replies whose three
columns have equal lengths; a ragged reply is a collection-contract
violation and would raise `IndexError`). -/
theorem search_empty_on_failure_and_similarity :
    (∀ reply : QueryReply, search none reply = some [])
    ∧ (∀ (v : List NF) (reply : QueryReply),
        reply.metadatas.length = reply.documents.length →
        reply.distances.length = reply.documents.length →
        search (some v) reply = some (spec_results reply)) := by
  refine ⟨fun reply => rfl, ?_⟩
  intro v reply hm hq
  obtain ⟨ds, ms, qs⟩ := reply
  show format_results ⟨ds, ms, qs⟩ ds.length = _
  rw [format_results_spec ds ms qs hm hq ds.length (le_refl _)]
  congr 1
  exact List.take_of_length_le (by simp [spec_results, List.length_zip, hm, hq])

/-- C8 witness: concretely, a failed embedding yields `[]`, and a one-row
reply at distance `1/2` yields similarity `1 - 1/2`, in place. -/
theorem search_empty_on_failure_and_similarity_witness :
    search none reply0 = some []
    ∧ search (some [NF.fin 1]) reply0 = some [⟨"doc", m0, 1 - (1 : ℚ)/2⟩] := by
  have h := search_empty_on_failure_and_similarity
  refine ⟨h.1 reply0, ?_⟩
  rw [h.2 [NF.fin 1] reply0 rfl rfl]
  rfl

/-!
## Embedding-client theorems
-/

/-- C4 (the code violates it): when the backend returns the all-zero vector,
`_get_embedding` does not fail — numpy's silent `0.0 / 0.0` turns every
component into NaN and the NaN vector is returned to the caller; the
explicit failure signal `None` is produced only for a raised (transport)
exception.  Stated for any square-root function with `sqrt 0 = 0`
(`np.linalg.norm` of the zero vector is exactly `0.0`). -/
theorem get_embedding_zero_vector_nan (sqrtm : ℚ → ℚ) (h : sqrtm 0 = 0) :
    get_embedding sqrtm (Except.ok [0, 0, 0]) = some [NF.nan, NF.nan, NF.nan]
    ∧ ∀ s, get_embedding sqrtm (Except.error s) = none := by
  refine ⟨?_, fun s => rfl⟩
  simp [get_embedding, sum_sq, h, nfDiv]

/-- C4 witness: the NaN outcome evaluated at a concrete square root. -/
theorem get_embedding_zero_vector_nan_witness :
    get_embedding (fun _ => 0) (Except.ok [0, 0, 0])
      = some [NF.nan, NF.nan, NF.nan] :=
  (get_embedding_zero_vector_nan (fun _ => 0) rfl).1

/-!
## Chunker lemmas
-/

theorem pyIndex_eq (t : List Char) (i : Int) (h0 : 0 ≤ i)
    (h1 : i < (t.length : Int)) :
    pyIndex t i = some (t.get ⟨i.toNat, by omega⟩) := by
  unfold pyIndex
  rw [if_neg (by omega)]
  rw [List.getElem?_eq_getElem (show i.toNat < t.length by omega)]
  simp [List.get_eq_getElem]

theorem pyIndex_isSome (t : List Char) (i : Int) (h0 : 0 ≤ i)
    (h1 : i < (t.length : Int)) :
    ∃ c, pyIndex t i = some c := by
  unfold pyIndex
  rw [if_neg (by omega)]
  exact ⟨_, List.getElem?_eq_getElem (show i.toNat < t.length by omega)⟩

theorem dropWhile_eq_self_of_no (p : Char → Bool) (l : List Char)
    (h : ∀ c ∈ l, p c = false) : l.dropWhile p = l := by
  cases l with
  | nil => rfl
  | cons c cs =>
    rw [List.dropWhile_cons, if_neg (by simp [h c (by simp)])]

theorem pyStrip_eq_self (l : List Char)
    (h : ∀ c ∈ l, isPySpace c = false) : pyStrip l = l := by
  unfold pyStrip
  rw [dropWhile_eq_self_of_no _ _ h,
    dropWhile_eq_self_of_no _ _ (fun c hc => h c (List.mem_reverse.mp hc)),
    List.reverse_reverse]

theorem pySlice_nonneg (t : List Char) (a b : Int) (h0 : 0 ≤ a)
    (ha : a ≤ (t.length : Int)) (hb : 0 ≤ b) :
    pySlice t a b
      = (t.drop a.toNat).take ((min b (t.length : Int)).toNat - a.toNat) := by
  have h1 : pyClamp t.length a = a.toNat := by
    unfold pyClamp
    rw [if_neg (by omega)]
    omega
  have h2 : pyClamp t.length b = (min b (t.length : Int)).toNat := by
    unfold pyClamp
    rw [if_neg (by omega)]
    omega
  unfold pySlice
  rw [h1, h2]

theorem take_drop_append (t : List Char) (a b : Nat) (hab : a ≤ b) :
    (t.drop a).take (b - a) ++ t.drop b = t.drop a := by
  rw [show t.drop b = (t.drop a).drop (b - a) by
    rw [List.drop_drop]; congr 1; omega]
  exact List.take_append_drop _ _

theorem sentenceSearch_isSome (t : List Char) :
    ∀ (cnt : Nat) (hi : Int), hi < (t.length : Int) → 0 ≤ hi + 1 - cnt →
    (sentenceSearch t cnt hi).isSome := by
  intro cnt
  induction cnt with
  | zero => intro hi _ _; simp [sentenceSearch]
  | succ c ih =>
    intro hi hlen hval
    obtain ⟨ch, hch⟩ := pyIndex_isSome t hi (by omega) hlen
    rw [show sentenceSearch t (c + 1) hi
        = (match pyIndex t hi with
          | none => none
          | some ch =>
            if isTerm ch then some (some (hi + 1)) else sentenceSearch t c (hi - 1))
        from rfl]
    rw [hch]
    dsimp only
    by_cases hterm : isTerm ch
    · rw [if_pos hterm]; rfl
    · rw [if_neg hterm]
      exact ih (hi - 1) (by omega) (by omega)

theorem sentenceSearch_some_bounds (t : List Char) :
    ∀ (cnt : Nat) (hi e : Int), sentenceSearch t cnt hi = some (some e) →
    hi - cnt + 2 ≤ e ∧ e ≤ hi + 1 := by
  intro cnt
  induction cnt with
  | zero => intro hi e h; simp [sentenceSearch] at h
  | succ c ih =>
    intro hi e h
    rw [show sentenceSearch t (c + 1) hi
        = (match pyIndex t hi with
          | none => none
          | some ch =>
            if isTerm ch then some (some (hi + 1)) else sentenceSearch t c (hi - 1))
        from rfl] at h
    cases hpi : pyIndex t hi with
    | none => rw [hpi] at h; simp at h
    | some ch =>
      rw [hpi] at h
      dsimp only at h
      by_cases hterm : isTerm ch
      · rw [if_pos hterm] at h
        have : e = hi + 1 := by simpa using h.symm
        omega
      · rw [if_neg hterm] at h
        have := ih (hi - 1) e h
        omega

theorem computeEnd_spec (t : List Char) (cs s : Int) (hcs : 0 < cs)
    (hs0 : 0 ≤ s) (_hslt : s < (t.length : Int)) :
    ∃ e, computeEnd t cs s = some e
      ∧ s + min cs (Int.fdiv cs 2 + 2) ≤ e ∧ e ≤ s + cs + 1 := by
  have hfd : Int.fdiv cs 2 = cs / 2 := Int.fdiv_eq_ediv cs (by norm_num)
  by_cases hend : s + cs < (t.length : Int)
  · have hsome := sentenceSearch_isSome t
      ((s + cs) - max (s + Int.fdiv cs 2) ((s + cs) - 100)).toNat (s + cs)
      hend (by rw [hfd]; omega)
    cases hsr : sentenceSearch t
        ((s + cs) - max (s + Int.fdiv cs 2) ((s + cs) - 100)).toNat (s + cs) with
    | none => rw [hsr] at hsome; simp at hsome
    | some o =>
      cases o with
      | none =>
        refine ⟨s + cs, ?_, by rw [hfd]; omega, by omega⟩
        unfold computeEnd
        rw [if_pos hend, hsr]
      | some e =>
        have hb := sentenceSearch_some_bounds t _ _ e hsr
        refine ⟨e, ?_, ?_, ?_⟩
        · unfold computeEnd
          rw [if_pos hend, hsr]
        · rw [hfd] at hb ⊢
          omega
        · rw [hfd] at hb
          omega
  · refine ⟨s + cs, ?_, by rw [hfd]; omega, by omega⟩
    unfold computeEnd
    rw [if_neg hend]

theorem chunkLoop_cover (t : List Char) (cs ov : Int) (hcs : 0 < cs)
    (hov0 : 0 ≤ ov) (hovq : ov ≤ Int.fdiv cs 2)
    (hws : ∀ c ∈ t, isPySpace c = false) :
    ∀ (f : Nat) (s : Int) (acc : List (List Char)),
    0 ≤ s → (t.length : Int) ≤ s + f →
    ∃ rest, chunkLoop t cs ov f s acc = some (acc ++ rest)
      ∧ (rest.map (List.drop ov.toNat)).flatten = t.drop (s + ov).toNat
      ∧ ∀ ch ∈ rest, (ch.length : Int) ≤ cs + 1 := by
  have hfd : Int.fdiv cs 2 = cs / 2 := Int.fdiv_eq_ediv cs (by norm_num)
  have hovq' : ov ≤ cs / 2 := by rw [hfd] at hovq; exact hovq
  intro f
  induction f with
  | zero =>
    intro s acc hs0 hsf
    refine ⟨[], ?_, ?_, by simp⟩
    · unfold chunkLoop
      rw [if_pos (by omega)]
      simp
    · have hnil : t.drop ((s + ov).toNat) = ([] : List Char) :=
        List.drop_eq_nil_of_le (by omega)
      simp [hnil]
  | succ f ih =>
    intro s acc hs0 hsf
    by_cases hexit : (t.length : Int) ≤ s
    · refine ⟨[], ?_, ?_, by simp⟩
      · unfold chunkLoop
        rw [if_pos hexit]
        simp
      · have hnil : t.drop ((s + ov).toNat) = ([] : List Char) :=
          List.drop_eq_nil_of_le (by omega)
        simp [hnil]
    · have hslt : s < (t.length : Int) := by omega
      obtain ⟨e, he, helo, hehi⟩ := computeEnd_spec t cs s hcs hs0 hslt
      have helo' : s + min cs (cs / 2 + 2) ≤ e := by rw [hfd] at helo; exact helo
      have hprog : s + ov + 1 ≤ e := by omega
      have hslice : pySlice t s e
          = (t.drop s.toNat).take ((min e (t.length : Int)).toNat - s.toNat) :=
        pySlice_nonneg t s e hs0 (by omega) (by omega)
      have hchunk_mem : ∀ c ∈ pySlice t s e, isPySpace c = false := by
        intro c hc
        rw [hslice] at hc
        exact hws c (List.mem_of_mem_drop (List.mem_of_mem_take hc))
      have hstrip : pyStrip (pySlice t s e) = pySlice t s e :=
        pyStrip_eq_self _ hchunk_mem
      have hlen_chunk : (pySlice t s e).length
          = min ((min e (t.length : Int)).toNat - s.toNat) (t.length - s.toNat) := by
        rw [hslice, List.length_take, List.length_drop]
      have hne : (pyStrip (pySlice t s e)).isEmpty = false := by
        rw [hstrip]
        cases hsl : pySlice t s e with
        | nil =>
          exfalso
          have h0 := hlen_chunk
          rw [hsl] at h0
          simp only [List.length_nil] at h0
          omega
        | cons a l => rfl
      have hstep : chunkLoop t cs ov (f + 1) s acc
          = chunkLoop t cs ov f (e - ov) (acc ++ [pySlice t s e]) := by
        conv_lhs => unfold chunkLoop
        rw [if_neg hexit]
        dsimp only
        rw [he]
        dsimp only
        rw [hne]
        rw [if_neg (by simp)]
        rw [hstrip]
      obtain ⟨rest, hres, hcov, hb⟩ :=
        ih (e - ov) (acc ++ [pySlice t s e]) (by omega) (by omega)
      refine ⟨pySlice t s e :: rest, ?_, ?_, ?_⟩
      · rw [hstep, hres, List.append_assoc]
        rfl
      · simp only [List.map_cons, List.flatten_cons]
        rw [hcov]
        rw [show e - ov + ov = e from by omega]
        rw [hslice, List.drop_take, List.drop_drop]
        rw [show s.toNat + ov.toNat = (s + ov).toNat from by omega]
        have htail : t.drop e.toNat = t.drop ((min e (t.length : Int)).toNat) := by
          rcases le_or_lt e (t.length : Int) with hcase | hcase
          · congr 1
            omega
          · rw [List.drop_eq_nil_of_le (by omega), List.drop_eq_nil_of_le (by omega)]
        rw [htail]
        rw [show (min e (t.length : Int)).toNat - s.toNat - ov.toNat
            = (min e (t.length : Int)).toNat - (s + ov).toNat from by omega]
        by_cases hcase : s + ov ≤ (t.length : Int)
        · exact take_drop_append t _ _ (by omega)
        · have h1 : t.drop ((s + ov).toNat) = ([] : List Char) :=
            List.drop_eq_nil_of_le (by omega)
          have h2 : t.drop ((min e (t.length : Int)).toNat) = ([] : List Char) :=
            List.drop_eq_nil_of_le (by omega)
          rw [h1, h2]
          simp
      · intro ch hch
        rcases List.mem_cons.mp hch with hch | hch
        · subst hch
          have h0 := hlen_chunk
          omega
        · exact hb ch hch

set_option maxHeartbeats 1000000 in
/-- C3 counterexample: the text `"a b"` has length 3 > chunk_size 2, the
chunker (chunk_size 2, overlap 0) produces the chunks `"a"` and `"b"` —
`.strip()` has discarded the boundary space — so the concatenation with
overlaps removed is `"ab"`, which does not reconstruct the original text. -/
theorem chunk_text_strip_breaks_reconstruction :
    (2 : Int) < (("a b".toList).length : Int)
    ∧ chunk_text ("a b".toList) 2 0 4 = some [['a'], ['b']]
    ∧ reconstruct 0 [['a'], ['b']] ≠ "a b".toList := by
  refine ⟨by decide, by decide, by decide⟩

/-- C3 (amended): provided `0 ≤ overlap ≤ chunk_size // 2` (so the loop
terminates; cf. C1) and `.strip()` removes nothing (sufficient condition:
the text contains no whitespace characters), for every text longer than
`chunk_size` the chunker succeeds within `len(text) + 1` iterations, the
concatenation of the chunks with the deliberate overlap regions (the
leading `overlap` characters of every chunk after the first) removed
reconstructs the original text exactly, and every chunk is at most
`chunk_size + 1` characters long (the backward sentence search may extend a
window by exactly one character, the sentence-search slack). -/
theorem chunk_text_reconstructs (t : List Char) (cs ov : Int)
    (hcs : 0 < cs) (hov0 : 0 ≤ ov) (hovq : ov ≤ Int.fdiv cs 2)
    (hlen : cs < (t.length : Int))
    (hws : ∀ c ∈ t, isPySpace c = false) :
    ∃ chunks, chunk_text t cs ov (t.length + 1) = some chunks
      ∧ reconstruct ov.toNat chunks = t
      ∧ ∀ ch ∈ chunks, (ch.length : Int) ≤ cs + 1 := by
  have hfd : Int.fdiv cs 2 = cs / 2 := Int.fdiv_eq_ediv cs (by norm_num)
  have hovq' : ov ≤ cs / 2 := by rw [hfd] at hovq; exact hovq
  have h0len : (0 : Int) < (t.length : Int) := by omega
  obtain ⟨e, he, helo, hehi⟩ :=
    computeEnd_spec t cs 0 hcs (le_refl 0) h0len
  have helo' : 0 + min cs (cs / 2 + 2) ≤ e := by rw [hfd] at helo; exact helo
  have hprog : ov + 1 ≤ e := by omega
  have hslice0 : pySlice t 0 e = t.take ((min e (t.length : Int)).toNat) := by
    rw [pySlice_nonneg t 0 e (le_refl 0) (by omega) (by omega)]
    simp
  have hchunk_mem : ∀ c ∈ pySlice t 0 e, isPySpace c = false := by
    intro c hc
    rw [hslice0] at hc
    exact hws c (List.mem_of_mem_take hc)
  have hstrip0 : pyStrip (pySlice t 0 e) = pySlice t 0 e :=
    pyStrip_eq_self _ hchunk_mem
  have hlen_chunk : (pySlice t 0 e).length
      = min ((min e (t.length : Int)).toNat) t.length := by
    rw [hslice0, List.length_take]
  have hne : (pyStrip (pySlice t 0 e)).isEmpty = false := by
    rw [hstrip0]
    cases hsl : pySlice t 0 e with
    | nil =>
      exfalso
      have h0 := hlen_chunk
      rw [hsl] at h0
      simp only [List.length_nil] at h0
      omega
    | cons a l => rfl
  have hstep0 : chunkLoop t cs ov (t.length + 1) 0 []
      = chunkLoop t cs ov t.length (e - ov) [pySlice t 0 e] := by
    conv_lhs => unfold chunkLoop
    rw [if_neg (by omega)]
    dsimp only
    rw [he]
    dsimp only
    rw [hne]
    rw [if_neg (by simp)]
    rw [hstrip0]
    rfl
  obtain ⟨rest, hres, hcov, hb⟩ :=
    chunkLoop_cover t cs ov hcs hov0 hovq hws t.length (e - ov)
      [pySlice t 0 e] (by omega) (by omega)
  refine ⟨pySlice t 0 e :: rest, ?_, ?_, ?_⟩
  · unfold chunk_text
    rw [if_neg (by omega), hstep0, hres]
    rfl
  · rw [show reconstruct ov.toNat (pySlice t 0 e :: rest)
        = pySlice t 0 e ++ (rest.map (List.drop ov.toNat)).flatten from rfl]
    rw [hcov, show e - ov + ov = e from by omega, hslice0]
    rcases le_or_lt e (t.length : Int) with hcase | hcase
    · rw [show min e (t.length : Int) = e from by omega]
      rw [show t.drop e.toNat = t.drop e.toNat from rfl]
      exact List.take_append_drop _ _
    · rw [show min e (t.length : Int) = (t.length : Int) from by omega]
      rw [List.take_of_length_le (by omega), List.drop_eq_nil_of_le (by omega)]
      simp
  · intro ch hch
    rcases List.mem_cons.mp hch with hch | hch
    · subst hch
      have h0 := hlen_chunk
      omega
    · exact hb ch hch

/-- C3 witness: the amended claim applied to the concrete whitespace-free
text `"aaa"` with chunk_size 2 and overlap 1. -/
theorem chunk_text_reconstructs_witness :
    ∃ chunks, chunk_text ("aaa".toList) 2 1 (("aaa".toList).length + 1)
        = some chunks
      ∧ reconstruct ((1 : Int).toNat) chunks = "aaa".toList
      ∧ ∀ ch ∈ chunks, (ch.length : Int) ≤ 2 + 1 :=
  chunk_text_reconstructs ("aaa".toList) 2 1 (by decide) (by decide)
    (by decide) (by decide) (by decide)

set_option maxHeartbeats 1000000 in
/-- C1 (the code violates it): `_chunk_text` has no progress guard.  On the
11-character text `"aaaaaa.aaaa"` with `chunk_size = 10` and
`overlap = 9 = chunk_size - 1`, the first iteration places the window end
just after the sentence terminator (`end = 7`), so the next window start is
`7 - 9 = -2`; from then on every iteration recomputes `end = 7` (the `.` at
index 6 lies inside the backward search range), strips the empty slice
`text[-2:7]`, and returns to start `-2` — the identical loop state repeats
forever, so no amount of fuel makes the loop return.  The claimed
every-iteration forward progress of the window start is false. -/
theorem chunk_text_stuck_window :
    ∀ fuel : Nat, chunk_text c1text 10 9 fuel = none := by
  have hstick : ∀ (f : Nat) (acc : List (List Char)),
      chunkLoop c1text 10 9 f (-2) acc = none := by
    intro f
    induction f with
    | zero =>
      intro acc
      unfold chunkLoop
      rw [if_neg (by decide)]
    | succ f ih =>
      intro acc
      conv_lhs => unfold chunkLoop
      rw [if_neg (by decide)]
      dsimp only
      rw [show computeEnd c1text 10 (-2) = some 7 from by decide]
      dsimp only
      rw [show pyStrip (pySlice c1text (-2) 7) = [] from by decide]
      rw [if_pos (show (([] : List Char)).isEmpty = true from rfl)]
      rw [show (7 : Int) - 9 = -2 from by decide]
      exact ih acc
  intro fuel
  unfold chunk_text
  rw [if_neg (by decide)]
  cases fuel with
  | zero =>
    unfold chunkLoop
    rw [if_neg (by decide)]
  | succ f =>
    conv_lhs => unfold chunkLoop
    rw [if_neg (by decide)]
    dsimp only
    rw [show computeEnd c1text 10 0 = some 7 from by decide]
    dsimp only
    rw [show (pyStrip (pySlice c1text 0 7)).isEmpty = false from by decide]
    rw [if_neg (by simp)]
    rw [show (7 : Int) - 9 = -2 from by decide]
    exact hstick f _

theorem computeEnd_big (t : List Char) (cs s : Int)
    (h : (t.length : Int) ≤ s + cs) :
    computeEnd t cs s = some (s + cs) := by
  unfold computeEnd
  rw [if_neg (by omega)]

theorem chunkLoop_exit (t : List Char) (cs ov : Int) (f : Nat) (s : Int)
    (acc : List (List Char)) (h : (t.length : Int) ≤ s) :
    chunkLoop t cs ov f s acc = some acc := by
  unfold chunkLoop
  rw [if_pos h]

theorem chunkLoop_replicate_step (n : Nat) (cs ov : Int) (f : Nat) (s e : Int)
    (acc : List (List Char)) (hs0 : 0 ≤ s) (hslt : s < (n : Int))
    (he : computeEnd (List.replicate n 'a') cs s = some e)
    (hse : s < e) (he0 : 0 ≤ e) :
    chunkLoop (List.replicate n 'a') cs ov (f + 1) s acc
      = chunkLoop (List.replicate n 'a') cs ov f (e - ov)
          (acc ++ [List.replicate ((min e (n : Int)).toNat - s.toNat) 'a']) := by
  have hslice : pySlice (List.replicate n 'a') s e
      = List.replicate ((min e (n : Int)).toNat - s.toNat) 'a' := by
    rw [pySlice_nonneg _ s e hs0 (by simp only [List.length_replicate]; omega) he0]
    simp only [List.length_replicate]
    rw [List.drop_replicate, List.take_replicate]
    congr 1
    omega
  have hmem : ∀ c ∈ pySlice (List.replicate n 'a') s e, isPySpace c = false := by
    intro c hc
    rw [hslice] at hc
    have hc' := List.eq_of_mem_replicate hc
    subst hc'
    decide
  have hstrip : pyStrip (pySlice (List.replicate n 'a') s e)
      = pySlice (List.replicate n 'a') s e := pyStrip_eq_self _ hmem
  have hne : (pyStrip (pySlice (List.replicate n 'a') s e)).isEmpty = false := by
    rw [hstrip, hslice]
    cases hk : (min e (n : Int)).toNat - s.toNat with
    | zero => exfalso; omega
    | succ m => rw [List.replicate_succ]; rfl
  conv_lhs => unfold chunkLoop
  rw [if_neg (by simp only [List.length_replicate]; omega)]
  dsimp only
  rw [he]
  dsimp only
  rw [hne]
  rw [if_neg (by simp)]
  rw [hstrip, hslice]

theorem sentenceSearch_max_term (t : List Char) :
    ∀ (cnt : Nat) (hi j : Int) (c : Char),
    0 ≤ j → hi - cnt < j → j ≤ hi → hi < (t.length : Int) →
    pyIndex t j = some c → isTerm c = true →
    (∀ k : Int, j < k → k ≤ hi → ∀ d, pyIndex t k = some d → isTerm d = false) →
    sentenceSearch t cnt hi = some (some (j + 1)) := by
  intro cnt
  induction cnt with
  | zero =>
    intro hi j c _ h1 h2 _ _ _ _
    exfalso
    omega
  | succ cn ih =>
    intro hi j c h0 h1 h2 hlen hj hterm hmax
    rcases eq_or_lt_of_le h2 with heq | hlt
    · subst heq
      rw [show sentenceSearch t (cn + 1) j
          = (match pyIndex t j with
            | none => none
            | some ch =>
              if isTerm ch then some (some (j + 1))
              else sentenceSearch t cn (j - 1)) from rfl]
      rw [hj]
      dsimp only
      rw [if_pos hterm]
    · obtain ⟨d, hd⟩ := pyIndex_isSome t hi (by omega) hlen
      have hdt : isTerm d = false := hmax hi hlt (le_refl hi) d hd
      rw [show sentenceSearch t (cn + 1) hi
          = (match pyIndex t hi with
            | none => none
            | some ch =>
              if isTerm ch then some (some (hi + 1))
              else sentenceSearch t cn (hi - 1)) from rfl]
      rw [hd]
      dsimp only
      rw [if_neg (by simp [hdt])]
      exact ih (hi - 1) j c h0 (by omega) (by omega) (by omega) hj hterm
        (fun k hk1 hk2 => hmax k hk1 (by omega))


theorem pyIndex_mem (t : List Char) (i : Int) (h0 : 0 ≤ i)
    (h1 : i < (t.length : Int)) :
    ∃ c, pyIndex t i = some c ∧ c ∈ t :=
  ⟨t.get ⟨i.toNat, by omega⟩, pyIndex_eq t i h0 h1,
    List.get_mem t i.toNat (by omega)⟩

theorem sentenceSearch_noTerm (t : List Char)
    (hnt : ∀ c ∈ t, isTerm c = false) :
    ∀ (cnt : Nat) (hi : Int), hi < (t.length : Int) → 0 ≤ hi + 1 - cnt →
    sentenceSearch t cnt hi = some none := by
  intro cnt
  induction cnt with
  | zero => intro hi _ _; rfl
  | succ c ih =>
    intro hi h1 h2
    obtain ⟨ch, hch, hchmem⟩ := pyIndex_mem t hi (by omega) h1
    rw [show sentenceSearch t (c + 1) hi
        = (match pyIndex t hi with
          | none => none
          | some ch =>
            if isTerm ch then some (some (hi + 1))
            else sentenceSearch t c (hi - 1)) from rfl]
    rw [hch]
    dsimp only
    rw [if_neg (by simp [hnt ch hchmem])]
    exact ih (hi - 1) (by omega) (by omega)

theorem computeEnd_noTerm (t : List Char) (hnt : ∀ c ∈ t, isTerm c = false)
    (cs s : Int) (hcs : 0 < cs) (hs0 : 0 ≤ s)
    (h : s + cs < (t.length : Int)) :
    computeEnd t cs s = some (s + cs) := by
  have hfd : Int.fdiv cs 2 = cs / 2 := Int.fdiv_eq_ediv cs (by norm_num)
  unfold computeEnd
  rw [if_pos h]
  rw [sentenceSearch_noTerm t hnt _ (s + cs) h (by rw [hfd]; omega)]

theorem chunkLoop_step_chunk (t : List Char) (cs ov : Int) (f : Nat)
    (s e : Int) (acc : List (List Char)) (chunk : List Char)
    (hslt : s < (t.length : Int))
    (he : computeEnd t cs s = some e)
    (hchunk : pyStrip (pySlice t s e) = chunk) :
    chunkLoop t cs ov (f + 1) s acc
      = chunkLoop t cs ov f (e - ov)
          (if chunk.isEmpty then acc else acc ++ [chunk]) := by
  conv_lhs => unfold chunkLoop
  rw [if_neg (by omega)]
  dsimp only
  rw [he]
  dsimp only
  rw [hchunk]

theorem chunkLoop_step_keep (t : List Char) (cs ov : Int) (f : Nat)
    (s e : Int) (acc : List (List Char))
    (hws : ∀ c ∈ t, isPySpace c = false)
    (hs0 : 0 ≤ s) (hslt : s < (t.length : Int))
    (he : computeEnd t cs s = some e) (hse : s < e) :
    chunkLoop t cs ov (f + 1) s acc
      = chunkLoop t cs ov f (e - ov) (acc ++ [pySlice t s e]) := by
  have he0 : 0 ≤ e := by omega
  have hslice : pySlice t s e
      = (t.drop s.toNat).take ((min e (t.length : Int)).toNat - s.toNat) :=
    pySlice_nonneg t s e hs0 (by omega) he0
  have hchunk_mem : ∀ c ∈ pySlice t s e, isPySpace c = false := by
    intro c hc
    rw [hslice] at hc
    exact hws c (List.mem_of_mem_drop (List.mem_of_mem_take hc))
  have hstrip : pyStrip (pySlice t s e) = pySlice t s e :=
    pyStrip_eq_self _ hchunk_mem
  have hlen_chunk : (pySlice t s e).length
      = min ((min e (t.length : Int)).toNat - s.toNat) (t.length - s.toNat) := by
    rw [hslice, List.length_take, List.length_drop]
  have hne : (pySlice t s e).isEmpty = false := by
    cases hsl : pySlice t s e with
    | nil =>
      exfalso
      rw [hsl] at hlen_chunk
      simp only [List.length_nil] at hlen_chunk
      omega
    | cons a l => rfl
  rw [chunkLoop_step_chunk t cs ov f s e acc (pySlice t s e) hslt he hstrip]
  rw [if_neg (by simp [hne])]

theorem dropWhile_sp_replicate (m : Nat) (l : List Char) :
    List.dropWhile isPySpace (List.replicate m ' ' ++ l)
      = List.dropWhile isPySpace l := by
  induction m with
  | zero => rfl
  | succ k ih =>
    rw [List.replicate_succ, List.cons_append, List.dropWhile_cons,
      if_pos (show isPySpace ' ' = true from by decide)]
    exact ih

theorem replicate_isEmpty_false (n : Nat) (c : Char) :
    (List.replicate (n + 1) c).isEmpty = false := by
  rw [List.replicate_succ]
  rfl

theorem pyStrip_aa_sp (n m : Nat) :
    pyStrip (List.replicate n 'a' ++ List.replicate m ' ')
      = List.replicate n 'a' := by
  cases n with
  | zero =>
    unfold pyStrip
    rw [show List.replicate 0 'a' ++ List.replicate m ' '
        = List.replicate m ' ' from rfl]
    rw [show List.replicate m ' ' = List.replicate m ' ' ++ []
        from (List.append_nil _).symm]
    rw [dropWhile_sp_replicate]
    rfl
  | succ k =>
    unfold pyStrip
    have hform : List.replicate (k + 1) 'a' ++ List.replicate m ' '
        = 'a' :: (List.replicate k 'a' ++ List.replicate m ' ') := by
      rw [List.replicate_succ, List.cons_append]
    rw [hform, List.dropWhile_cons,
      if_neg (show ¬ isPySpace 'a' = true from by decide), ← hform]
    rw [List.reverse_append, List.reverse_replicate, List.reverse_replicate]
    rw [dropWhile_sp_replicate]
    rw [dropWhile_eq_self_of_no _ _ (fun c hc => by
      have hce := List.eq_of_mem_replicate hc
      subst hce
      decide)]
    rw [List.reverse_replicate]

/-- C9 (amended): on every 2500-character text containing no sentence
terminator (so no boundary is ever shifted) and no whitespace (so no window
strips to empty and gets dropped — cf. the counterexample), `_chunk_text`
with `chunk_size = 1000, overlap = 200` produces exactly 4 chunks (windows
`[0,1000)`, `[800,1800)`, `[1600,2500)`, `[2400,2500)`); and whenever a
sentence terminator exists within the backward search window, the window
end is placed just after the last (nearest-to-the-end) such terminator. -/
theorem chunk_text_2500_four_chunks :
    (∀ t : List Char, t.length = 2500 →
        (∀ c ∈ t, isTerm c = false) →
        (∀ c ∈ t, isPySpace c = false) →
        (chunk_text t 1000 200 2501).map List.length = some 4)
    ∧ (∀ (t : List Char) (cnt : Nat) (hi j : Int) (c : Char),
        0 ≤ j → hi - cnt < j → j ≤ hi → hi < (t.length : Int) →
        pyIndex t j = some c → isTerm c = true →
        (∀ k : Int, j < k → k ≤ hi → ∀ d, pyIndex t k = some d →
          isTerm d = false) →
        sentenceSearch t cnt hi = some (some (j + 1))) := by
  constructor
  · intro t hlen hnt hws
    have hleni : (t.length : Int) = 2500 := by rw [hlen]; norm_num
    have h1 : computeEnd t 1000 0 = some 1000 := by
      have h := computeEnd_noTerm t hnt 1000 0 (by norm_num) (le_refl 0)
        (by omega)
      rw [show ((0 : Int) + 1000) = 1000 from by decide] at h
      exact h
    have h2 : computeEnd t 1000 800 = some 1800 := by
      have h := computeEnd_noTerm t hnt 1000 800 (by norm_num) (by norm_num)
        (by omega)
      rw [show ((800 : Int) + 1000) = 1800 from by decide] at h
      exact h
    have h3 : computeEnd t 1000 1600 = some 2600 := by
      have h := computeEnd_big t 1000 1600 (by omega)
      rw [show ((1600 : Int) + 1000) = 2600 from by decide] at h
      exact h
    have h4 : computeEnd t 1000 2400 = some 3400 := by
      have h := computeEnd_big t 1000 2400 (by omega)
      rw [show ((2400 : Int) + 1000) = 3400 from by decide] at h
      exact h
    have hA : chunkLoop t 1000 200 2501 0 []
        = chunkLoop t 1000 200 2500 800 [pySlice t 0 1000] := by
      rw [show (2501 : Nat) = 2500 + 1 from rfl]
      rw [chunkLoop_step_keep t 1000 200 2500 0 1000 [] hws (le_refl 0)
        (by omega) h1 (by norm_num)]
      norm_num
    have hB : chunkLoop t 1000 200 2500 800 [pySlice t 0 1000]
        = chunkLoop t 1000 200 2499 1600
            [pySlice t 0 1000, pySlice t 800 1800] := by
      rw [show (2500 : Nat) = 2499 + 1 from rfl]
      rw [chunkLoop_step_keep t 1000 200 2499 800 1800 _ hws (by norm_num)
        (by omega) h2 (by norm_num)]
      norm_num
    have hC : chunkLoop t 1000 200 2499 1600
          [pySlice t 0 1000, pySlice t 800 1800]
        = chunkLoop t 1000 200 2498 2400
            [pySlice t 0 1000, pySlice t 800 1800, pySlice t 1600 2600] := by
      rw [show (2499 : Nat) = 2498 + 1 from rfl]
      rw [chunkLoop_step_keep t 1000 200 2498 1600 2600 _ hws (by norm_num)
        (by omega) h3 (by norm_num)]
      norm_num
    have hD : chunkLoop t 1000 200 2498 2400
          [pySlice t 0 1000, pySlice t 800 1800, pySlice t 1600 2600]
        = chunkLoop t 1000 200 2497 3200
            [pySlice t 0 1000, pySlice t 800 1800, pySlice t 1600 2600,
             pySlice t 2400 3400] := by
      rw [show (2498 : Nat) = 2497 + 1 from rfl]
      rw [chunkLoop_step_keep t 1000 200 2497 2400 3400 _ hws (by norm_num)
        (by omega) h4 (by norm_num)]
      norm_num
    have hE : chunkLoop t 1000 200 2497 3200
          [pySlice t 0 1000, pySlice t 800 1800, pySlice t 1600 2600,
           pySlice t 2400 3400]
        = some [pySlice t 0 1000, pySlice t 800 1800, pySlice t 1600 2600,
            pySlice t 2400 3400] :=
      chunkLoop_exit _ _ _ _ _ _ (by omega)
    unfold chunk_text
    rw [if_neg (by omega), hA, hB, hC, hD, hE]
    rfl
  · exact sentenceSearch_max_term

/-- C9 counterexample: the 2500-character text of 2400 `'a'`s followed by
100 spaces contains no sentence terminator at all, so no boundary is ever
shifted and the pure sliding-window arithmetic applies — yet `_chunk_text`
with `chunk_size = 1000, overlap = 200` produces only 3 chunks: the final
window `text[2400:3400]` is all spaces, `.strip()` empties it, and the
empty chunk is dropped.  The claim's universally quantified 4-chunk count
is therefore false. -/
theorem chunk_text_2500_trailing_spaces_three_chunks :
    c9cex.length = 2500
    ∧ (∀ c ∈ c9cex, isTerm c = false)
    ∧ (chunk_text c9cex 1000 200 2501).map List.length = some 3 := by
  have hclen : c9cex.length = 2500 := by
    rw [show c9cex = List.replicate 2400 'a' ++ List.replicate 100 ' '
      from rfl, List.length_append, List.length_replicate,
      List.length_replicate]
  have hclen' : (c9cex.length : Int) = 2500 := by rw [hclen]; norm_num
  have hnt : ∀ c ∈ c9cex, isTerm c = false := by
    intro c hc
    simp only [c9cex, List.mem_append] at hc
    rcases hc with hc | hc
    · have hce := List.eq_of_mem_replicate hc
      subst hce
      decide
    · have hce := List.eq_of_mem_replicate hc
      subst hce
      decide
  refine ⟨hclen, hnt, ?_⟩
  have h1 : computeEnd c9cex 1000 0 = some 1000 := by
    have h := computeEnd_noTerm c9cex hnt 1000 0 (by norm_num) (le_refl 0)
      (by omega)
    rw [show ((0 : Int) + 1000) = 1000 from by decide] at h
    exact h
  have h2 : computeEnd c9cex 1000 800 = some 1800 := by
    have h := computeEnd_noTerm c9cex hnt 1000 800 (by norm_num) (by norm_num)
      (by omega)
    rw [show ((800 : Int) + 1000) = 1800 from by decide] at h
    exact h
  have h3 : computeEnd c9cex 1000 1600 = some 2600 := by
    have h := computeEnd_big c9cex 1000 1600 (by omega)
    rw [show ((1600 : Int) + 1000) = 2600 from by decide] at h
    exact h
  have h4 : computeEnd c9cex 1000 2400 = some 3400 := by
    have h := computeEnd_big c9cex 1000 2400 (by omega)
    rw [show ((2400 : Int) + 1000) = 3400 from by decide] at h
    exact h
  have hs1 : pyStrip (pySlice c9cex 0 1000) = List.replicate 1000 'a' := by
    have hsl : pySlice c9cex 0 1000 = List.replicate 1000 'a' := by
      rw [pySlice_nonneg c9cex 0 1000 (by norm_num) (by omega) (by norm_num)]
      rw [show ((0 : Int).toNat) = 0 from rfl, List.drop_zero]
      rw [show (min (1000 : Int) (c9cex.length : Int)).toNat - 0 = 1000 from by
        rw [hclen']; decide]
      rw [show c9cex = List.replicate 2400 'a' ++ List.replicate 100 ' '
        from rfl]
      rw [List.take_append_of_le_length (by simp only [List.length_append, List.length_replicate]; norm_num)]
      rw [List.take_replicate]
      rw [show (1000 : Nat) ⊓ 2400 = 1000 from by omega]
    rw [hsl]
    exact pyStrip_eq_self _ (fun c hc => by
      have hce := List.eq_of_mem_replicate hc
      subst hce
      decide)
  have hs2 : pyStrip (pySlice c9cex 800 1800) = List.replicate 1000 'a' := by
    have hsl : pySlice c9cex 800 1800 = List.replicate 1000 'a' := by
      rw [pySlice_nonneg c9cex 800 1800 (by norm_num) (by omega) (by norm_num)]
      rw [show ((800 : Int).toNat) = 800 from rfl]
      rw [show (min (1800 : Int) (c9cex.length : Int)).toNat - 800 = 1000 from by
        rw [hclen']; decide]
      rw [show c9cex = List.replicate 2400 'a' ++ List.replicate 100 ' '
        from rfl]
      rw [List.drop_append_of_le_length (by simp only [List.length_append, List.length_replicate]; norm_num)]
      rw [List.drop_replicate]
      rw [show (2400 : Nat) - 800 = 1600 from by omega]
      rw [List.take_append_of_le_length (by simp only [List.length_append, List.length_replicate]; norm_num)]
      rw [List.take_replicate]
      rw [show (1000 : Nat) ⊓ 1600 = 1000 from by omega]
    rw [hsl]
    exact pyStrip_eq_self _ (fun c hc => by
      have hce := List.eq_of_mem_replicate hc
      subst hce
      decide)
  have hs3 : pyStrip (pySlice c9cex 1600 2600) = List.replicate 800 'a' := by
    have hsl : pySlice c9cex 1600 2600
        = List.replicate 800 'a' ++ List.replicate 100 ' ' := by
      rw [pySlice_nonneg c9cex 1600 2600 (by norm_num) (by omega) (by norm_num)]
      rw [show ((1600 : Int).toNat) = 1600 from rfl]
      rw [show (min (2600 : Int) (c9cex.length : Int)).toNat - 1600 = 900 from by
        rw [hclen']; decide]
      rw [show c9cex = List.replicate 2400 'a' ++ List.replicate 100 ' '
        from rfl]
      rw [List.drop_append_of_le_length (by simp only [List.length_append, List.length_replicate]; norm_num)]
      rw [List.drop_replicate]
      rw [show (2400 : Nat) - 1600 = 800 from by omega]
      rw [List.take_of_length_le (by simp only [List.length_append, List.length_replicate]; norm_num)]
    rw [hsl]
    exact pyStrip_aa_sp 800 100
  have hs4 : pyStrip (pySlice c9cex 2400 3400) = [] := by
    have hsl : pySlice c9cex 2400 3400 = List.replicate 100 ' ' := by
      rw [pySlice_nonneg c9cex 2400 3400 (by norm_num) (by omega) (by norm_num)]
      rw [show ((2400 : Int).toNat) = 2400 from rfl]
      rw [show (min (3400 : Int) (c9cex.length : Int)).toNat - 2400 = 100 from by
        rw [hclen']; decide]
      rw [show c9cex = List.replicate 2400 'a' ++ List.replicate 100 ' '
        from rfl]
      rw [List.drop_append_of_le_length (by simp only [List.length_append, List.length_replicate]; norm_num)]
      rw [List.drop_replicate]
      rw [show (2400 : Nat) - 2400 = 0 from by omega]
      rw [show List.replicate 0 'a' ++ List.replicate 100 ' '
          = List.replicate 100 ' ' from rfl]
      rw [List.take_of_length_le (by simp only [List.length_append, List.length_replicate]; norm_num)]
    rw [hsl]
    exact pyStrip_aa_sp 0 100
  have hne1000 : (List.replicate 1000 'a').isEmpty = false :=
    replicate_isEmpty_false 999 'a'
  have hne800 : (List.replicate 800 'a').isEmpty = false :=
    replicate_isEmpty_false 799 'a'
  have hA : chunkLoop c9cex 1000 200 2501 0 []
      = chunkLoop c9cex 1000 200 2500 800 [List.replicate 1000 'a'] := by
    rw [show (2501 : Nat) = 2500 + 1 from rfl]
    rw [chunkLoop_step_chunk c9cex 1000 200 2500 0 1000 [] _ (by omega) h1 hs1]
    rw [if_neg (by simp [hne1000])]
    norm_num
  have hB : chunkLoop c9cex 1000 200 2500 800 [List.replicate 1000 'a']
      = chunkLoop c9cex 1000 200 2499 1600
          [List.replicate 1000 'a', List.replicate 1000 'a'] := by
    rw [show (2500 : Nat) = 2499 + 1 from rfl]
    rw [chunkLoop_step_chunk c9cex 1000 200 2499 800 1800 _ _ (by omega) h2 hs2]
    rw [if_neg (by simp [hne1000])]
    norm_num
  have hC : chunkLoop c9cex 1000 200 2499 1600
        [List.replicate 1000 'a', List.replicate 1000 'a']
      = chunkLoop c9cex 1000 200 2498 2400
          [List.replicate 1000 'a', List.replicate 1000 'a',
           List.replicate 800 'a'] := by
    rw [show (2499 : Nat) = 2498 + 1 from rfl]
    rw [chunkLoop_step_chunk c9cex 1000 200 2498 1600 2600 _ _ (by omega) h3 hs3]
    rw [if_neg (by simp [hne800])]
    norm_num
  have hD : chunkLoop c9cex 1000 200 2498 2400
        [List.replicate 1000 'a', List.replicate 1000 'a',
         List.replicate 800 'a']
      = chunkLoop c9cex 1000 200 2497 3200
          [List.replicate 1000 'a', List.replicate 1000 'a',
           List.replicate 800 'a'] := by
    rw [show (2498 : Nat) = 2497 + 1 from rfl]
    rw [chunkLoop_step_chunk c9cex 1000 200 2497 2400 3400 _ _ (by omega) h4 hs4]
    rw [if_pos (show (([] : List Char)).isEmpty = true from rfl)]
    norm_num
  have hE : chunkLoop c9cex 1000 200 2497 3200
        [List.replicate 1000 'a', List.replicate 1000 'a',
         List.replicate 800 'a']
      = some [List.replicate 1000 'a', List.replicate 1000 'a',
          List.replicate 800 'a'] :=
    chunkLoop_exit _ _ _ _ _ _ (by omega)
  unfold chunk_text
  rw [if_neg (by omega), hA, hB, hC, hD, hE]
  rfl

/-- C9 witness: the amended count applied to the concrete terminator-free,
whitespace-free text of 2500 `'a'`s, and the boundary conjunct applied at
the concrete text `"ab.cd"`, whose `.` at index 2 is the greatest
terminator in the probed window, giving end position 3. -/
theorem chunk_text_2500_four_chunks_witness :
    (chunk_text (List.replicate 2500 'a') 1000 200 2501).map List.length
      = some 4
    ∧ sentenceSearch ("ab.cd".toList) 3 2 = some (some 3) := by
  constructor
  · refine chunk_text_2500_four_chunks.1 (List.replicate 2500 'a')
      (List.length_replicate 2500 'a') ?_ ?_
    · intro c hc
      have hce := List.eq_of_mem_replicate hc
      subst hce
      decide
    · intro c hc
      have hce := List.eq_of_mem_replicate hc
      subst hce
      decide
  · exact chunk_text_2500_four_chunks.2 ("ab.cd".toList) 3 2 2 '.' (by decide)
      (by decide) (by decide) (by decide) (by decide) (by decide)
      (fun k hk1 hk2 d hd => absurd hk2 (by omega))
